import Mathlib

/-!
Verification of the noether molecular-simulation core.

Shallow embedding of the Rust sources in src/: f64 scalars are modelled by
real numbers, slices by lists, fallible operations (including Rust panics,
such as out-of-bounds indexing) by Option or Except values.  Definitions are
translated from the source files named in their doc comments.
-/

namespace Noether

noncomputable section

/-- A point or box vector: the Rust type [f64::Length; 3]. -/
structure Vec3 where
  x : ℝ
  y : ℝ
  z : ℝ
deriving DecidableEq

/-- Error enum from src/result.rs (the variants the verified layer reaches). -/
inductive Error where
  | minimumImageConventionNotJustified
  | illegalTopology
  | neighbourlistNotCompatible
  | cutoffRequired
  | positionTopologyMismatch
deriving DecidableEq, Repr

/-- Boundary conditions: NoBounds or Pbc(v1, v2, v3) from src/boundaries.rs. -/
inductive Boundaries where
  | noBounds
  | pbc (v1 v2 v3 : Vec3)

/-- Squared distance in open space: the default BoundaryConditions::dist2
(src/boundaries.rs lines 45-56), used by NoBounds. -/
def openDist2 (a b : Vec3) : ℝ :=
  (b.x - a.x) ^ 2 + (b.y - a.y) ^ 2 + (b.z - a.z) ^ 2

/-- The shift coefficients iterated by Pbc::dist2: for &i in &[-1.0, 0.0, 1.0]. -/
def shifts : List ℝ := [-1, 0, 1]

/-- One minimum-image candidate of Pbc::dist2 (src/boundaries.rs lines
157-164): the squared norm of (b - a) + i*v1 + j*v2 + k*v3. -/
def imageDist2 (v1 v2 v3 a b : Vec3) (i j k : ℝ) : ℝ :=
  ((b.x - a.x) + i * v1.x + j * v2.x + k * v3.x) ^ 2
    + ((b.y - a.y) + i * v1.y + j * v2.y + k * v3.y) ^ 2
    + ((b.z - a.z) + i * v1.z + j * v2.z + k * v3.z) ^ 2

/-- The 27 candidate values of Pbc::dist2 in the iteration order of the
source: i outermost, then j, then k, each over [-1, 0, 1]. -/
def imageList (v1 v2 v3 a b : Vec3) : List ℝ :=
  shifts.flatMap fun i => shifts.flatMap fun j => shifts.map fun k =>
    imageDist2 v1 v2 v3 a b i j k

/-- Minimum of a list of reals, 0 for the empty list.  Models the source
pattern of folding min over candidate values starting from +infinity: on a
non-empty list that fold equals folding min over the tail starting from the
head (the reals have no infinity; the empty case is never reached). -/
def minOfList (l : List ℝ) : ℝ :=
  match l with
  | [] => 0
  | r :: rs => rs.foldl min r

/-- Pbc::dist2 (src/boundaries.rs lines 141-170): the minimum of the 27
minimum-image candidates. -/
def pbcDist2 (v1 v2 v3 a b : Vec3) : ℝ :=
  minOfList (imageList v1 v2 v3 a b)

/-- BoundaryConditions::dist2 dispatched over the two variants. -/
def Boundaries.dist2 : Boundaries → Vec3 → Vec3 → ℝ
  | .noBounds, a, b => openDist2 a b
  | .pbc v1 v2 v3, a, b => pbcDist2 v1 v2 v3 a b

/-- Length of a box vector as computed inside Pbc::pairlist_checks
(src/boundaries.rs lines 183-189): sqrt of the sum of squared components. -/
def boxVecLength (v : Vec3) : ℝ := Real.sqrt (v.x ^ 2 + v.y ^ 2 + v.z ^ 2)

/-- The smallest box-vector length of Pbc::pairlist_checks (lines 183-193).
The source folds (if min <= x then min else x) over the three lengths
starting from +infinity, which is the iterated binary minimum below. -/
def smallestBoxLength (v1 v2 v3 : Vec3) : ℝ :=
  min (min (boxVecLength v1) (boxVecLength v2)) (boxVecLength v3)

/-- BoundaryConditions::pairlist_checks (src/boundaries.rs lines 58-63 for
the default used by NoBounds, lines 172-200 for Pbc), applied to a pairlist
through its declared cutoff (Pairlist::cutoff). -/
def pairlistChecks : Boundaries → Option ℝ → Except Error Unit
  | .noBounds, _ => .ok ()
  | .pbc _ _ _, none => .ok ()
  | .pbc v1 v2 v3, some cutoff =>
      if cutoff < smallestBoxLength v1 v2 v3 then .ok ()
      else .error .minimumImageConventionNotJustified

/-- LjParams row (src/topology.rs lines 195-198): sigma and epsilon. -/
structure LjParams where
  sigma : ℝ
  epsilon : ℝ

/-- LjParamsPair (src/topology.rs lines 202-206): precomputed mixed values. -/
structure LjParamsPair where
  sigma_squared : ℝ
  epsilon : ℝ
  shift : ℝ

/-- LjParamsPair::lj_potential (src/topology.rs lines 249-255). -/
def LjParamsPair.ljPotential (p : LjParamsPair) (r_squared : ℝ) : ℝ :=
  let six := (p.sigma_squared / r_squared) ^ 3
  let twelve := six ^ 2
  4 * p.epsilon * (twelve - six) - p.shift

/-- LjParamsPair::new (src/topology.rs lines 208-234): geometric mixing
(sigma_a * sigma_b for sigma squared, sqrt of epsilon_a * epsilon_b for
epsilon) and the shift constant, the unshifted potential at cutoff^2. -/
def LjParamsPair.new (a b : LjParams) (cutoff : ℝ) : LjParamsPair :=
  let sigma_squared := a.sigma * b.sigma
  let epsilon := Real.sqrt (a.epsilon * b.epsilon)
  let shift :=
    LjParamsPair.ljPotential ⟨sigma_squared, epsilon, 0⟩ (cutoff * cutoff)
  ⟨sigma_squared, epsilon, shift⟩

/-- Atom (src/topology.rs lines 188-191): an index into the LJ parameter
table (u16 in the source, modelled as a natural number). -/
structure Atom where
  lj_params : ℕ
deriving DecidableEq

/-- Topology (src/topology.rs lines 35-52). -/
structure Topology where
  atoms : List Atom
  atom_names : List String
  lj_params : List LjParams
  lj_params_pairs : List (List LjParamsPair)
  lj_cutoff : ℝ

/-- Topology::new (src/topology.rs lines 56-93).  The source loops over the
atoms and returns IllegalTopology at the first atom whose parameter index
does not resolve; since the error value does not depend on which atom fails,
this is the List.any check below. -/
def Topology.new (atoms : List Atom) (atom_names : List String)
    (lj_params : List LjParams) (lj_cutoff : ℝ) : Except Error Topology :=
  if atoms.length ≠ atom_names.length then .error .illegalTopology
  else if atoms.any fun atom => lj_params[atom.lj_params]?.isNone then
    .error .illegalTopology
  else .ok {
    atoms := atoms
    atom_names := atom_names
    lj_params := lj_params
    lj_params_pairs :=
      lj_params.map fun a => lj_params.map fun b => LjParamsPair.new a b lj_cutoff
    lj_cutoff := lj_cutoff }

/-- Topology::get_lj_params (src/topology.rs lines 121-125). -/
def Topology.getLjParams (t : Topology) (index : ℕ) : Option LjParams :=
  t.atoms[index]?.bind fun atom => t.lj_params[atom.lj_params]?

/-- Topology::get_lj_pair (src/topology.rs lines 127-132). -/
def Topology.getLjPair (t : Topology) (i j : ℕ) : Option LjParamsPair :=
  t.atoms[i]?.bind fun ai =>
    t.atoms[j]?.bind fun aj =>
      t.lj_params_pairs[ai.lj_params]?.bind fun row =>
        row[aj.lj_params]?

/-- Topology::get_atom_names (src/topology.rs lines 134-137). -/
def Topology.getAtomNames (t : Topology) (index : ℕ) : Option String :=
  t.atom_names[index]?

/-- LjPotential (src/topology/lj.rs lines 11-23); its pairlist is represented
by the declared cutoff, the only part with_pairlist reads from it. -/
structure LjPotential where
  atoms : List ℕ
  lj_params : List LjParams
  lj_params_pairs : List (List LjParamsPair)
  lj_cutoff : ℝ

/-- LjPotential::with_pairlist (src/topology/lj.rs lines 40-77): the same
parameter-index check as Topology::new, then CutoffRequired when the
pairlist declares no cutoff, then the precomputed pair table. -/
def LjPotential.withPairlist (atoms : List ℕ) (lj_params : List LjParams)
    (pairlistCutoff : Option ℝ) : Except Error LjPotential :=
  if atoms.any fun atom => lj_params[atom]?.isNone then
    .error .illegalTopology
  else
    match pairlistCutoff with
    | none => .error .cutoffRequired
    | some lj_cutoff => .ok {
        atoms := atoms
        lj_params := lj_params
        lj_params_pairs :=
          lj_params.map fun a =>
            lj_params.map fun b => LjParamsPair.new a b lj_cutoff
        lj_cutoff := lj_cutoff }

/-- An AtomPair ((i, j), r^2) from src/neighbourlist.rs line 12 and
src/pairlist.rs line 11. -/
abbrev AtomPair : Type := (ℕ × ℕ) × ℝ

/-- The body of the inner loop of SimplePairlist::regenerate
(src/neighbourlist/simple.rs lines 39-44): compute r^2 for the pair and
push ((i, j), r^2) when it is inside the squared cutoff. -/
def simpleRegenerateInner (cutoff : ℝ) (boundaries : Boundaries)
    (ia jb : ℕ × Vec3) : Option AtomPair :=
  let r_squared := boundaries.dist2 ia.2 jb.2
  if r_squared < cutoff * cutoff then some ((ia.1, jb.1), r_squared)
  else none

/-- SimplePairlist::regenerate of the neighbourlist module
(src/neighbourlist/simple.rs lines 29-49): the pair list after the clear
and rebuild.  The outer loop enumerates positions with absolute index i;
the inner loop zips the counter starting at i+1 with positions[i+1..]
(List.enumFrom (i+1) of the dropped list), so j is the absolute index. -/
def simpleRegeneratePairs (cutoff : ℝ) (positions : List Vec3)
    (boundaries : Boundaries) : List AtomPair :=
  positions.enum.flatMap fun ia =>
    ((positions.drop (ia.1 + 1)).enumFrom (ia.1 + 1)).filterMap
      (simpleRegenerateInner cutoff boundaries ia)

/-- SimplePairlist::update of the pairlist module (src/pairlist/simple.rs
lines 13-33): the same clear and rebuild, except that the inner loop
enumerates positions[i+1..] from zero, so the recorded j is the index
relative to i+1, not the absolute index. -/
def pairlistSimpleUpdatePairs (cutoff : ℝ) (positions : List Vec3)
    (boundaries : Boundaries) : List AtomPair :=
  positions.enum.flatMap fun ia =>
    (positions.drop (ia.1 + 1)).enum.filterMap
      (simpleRegenerateInner cutoff boundaries ia)

/-- The update loop shared verbatim by SimplePairlist::update
(src/neighbourlist/simple.rs lines 56-68) and VerletPairlist::update
(src/neighbourlist/verlet.rs lines 62-71): recompute r^2 for every stored
pair from the current positions; a stored index outside positions is a Rust
index panic, modelled as none. -/
def updatePairs (pairs : List AtomPair) (positions : List Vec3)
    (boundaries : Boundaries) : Option (List AtomPair) :=
  pairs.mapM fun pr =>
    positions[pr.1.1]?.bind fun a =>
      positions[pr.1.2]?.map fun b => (pr.1, boundaries.dist2 a b)

/-- The displacement range of CellList::iter_neighbouring_cells
(src/neighbourlist/verlet.rs lines 154-156): the half-open Rust range
(-neighbours..neighbours), whose elements are -neighbours, ...,
neighbours - 1; it omits +neighbours. -/
def deltaRange (neighbours : ℕ) : List ℤ :=
  (List.range (2 * neighbours)).map fun t => (t : ℤ) - neighbours

/-- The per-axis clamp of iter_neighbouring_cells (lines 157-171): add the
signed displacement to the index and clamp into [0, bound - 1], written with
the same three match arms as the source. -/
def clampAdd (idx : ℕ) (d : ℤ) (bound : ℕ) : ℕ :=
  let s := (idx : ℤ) + d
  if (bound : ℤ) ≤ s then bound - 1
  else if s < 0 then 0
  else s.toNat

/-- CellList::iter_neighbouring_cells (src/neighbourlist/verlet.rs lines
146-176), with its unflattening exactly as written in the source:
x = cell / (j*k), y = (cell - x) / k, z = cell - x - y (usize division and
subtraction, here natural-number division and truncated subtraction). -/
def iterNeighbouringCells (n_cells : ℕ × ℕ × ℕ) (cell : ℕ)
    (neighbours : ℕ) : List ℕ :=
  let i := n_cells.1
  let j := n_cells.2.1
  let k := n_cells.2.2
  let x_idx := cell / (j * k)
  let y_idx := (cell - x_idx) / k
  let z_idx := cell - x_idx - y_idx
  (deltaRange neighbours).flatMap fun dx =>
    (deltaRange neighbours).flatMap fun dy =>
      (deltaRange neighbours).map fun dz =>
        clampAdd z_idx dz k + k * clampAdd y_idx dy j
          + j * k * clampAdd x_idx dx i

/-- The flattening used by CellList::position_to_cell (line 143):
z + k*y + j*k*x. -/
def flattenCell (n_cells : ℕ × ℕ × ℕ) (x y z : ℕ) : ℕ :=
  z + n_cells.2.2 * y + n_cells.2.1 * n_cells.2.2 * x

/-- CellList (src/neighbourlist/verlet.rs lines 87-101): grid shape, cell
lengths, and the intrusive chain arrays indices and head.  The boundaries
field is never read by the modelled operations and is omitted. -/
structure CellList where
  n_cells : ℕ × ℕ × ℕ
  cell_length : Vec3
  indices : List (Option ℕ)
  head : List (Option ℕ)

/-- CellList::position_to_cell (lines 132-144): the per-axis index is
f64::from(x / l) as usize (a saturating cast: negative values go to zero,
modelled as Int.toNat of the floor), clamped to at most n - 1, then
flattened as z + k*y + j*k*x. -/
def positionToCell (cl : CellList) (p : Vec3) : ℕ :=
  let i := cl.n_cells.1
  let j := cl.n_cells.2.1
  let k := cl.n_cells.2.2
  let x_idx := min (Int.toNat ⌊p.x / cl.cell_length.x⌋) (i - 1)
  let y_idx := min (Int.toNat ⌊p.y / cl.cell_length.y⌋) (j - 1)
  let z_idx := min (Int.toNat ⌊p.z / cl.cell_length.z⌋) (k - 1)
  z_idx + k * y_idx + j * k * x_idx

/-- The chain walk of CellList::add_atom (lines 201-207): follow indices
from i to the first atom with no successor.  An out-of-bounds read is a
Rust index panic (none); the fuel bounds the loop, which the source cannot
leave on a cyclic chain (it would spin forever). -/
def walkTail (indices : List (Option ℕ)) : ℕ → ℕ → Option ℕ
  | 0, _ => none
  | fuel + 1, i =>
      match indices[i]? with
      | none => none
      | some none => some i
      | some (some n2) => walkTail indices fuel n2

/-- CellList::add_atom (lines 198-212): link atom_index at the tail of the
chain of cell cell_index.  The tail write is always in bounds (the walk
read that slot); the write to indices[atom_index] panics when atom_index is
out of bounds, hence the explicit bound check. -/
def addAtom (cl : CellList) (atom_index cell_index : ℕ) : Option CellList :=
  match cl.head[cell_index]? with
  | none => none
  | some none =>
      some { cl with head := cl.head.set cell_index (some atom_index) }
  | some (some h) =>
      (walkTail cl.indices (cl.indices.length + 1) h).bind fun tail =>
        if atom_index < cl.indices.length then
          some { cl with indices :=
            (cl.indices.set tail (some atom_index)).set atom_index none }
        else none

/-- CellList::regenerate (lines 125-130): add every atom, in order of its
index, at the cell of its position. -/
def cellListRegenerate (cl : CellList) (positions : List Vec3) :
    Option CellList :=
  positions.enum.foldlM
    (fun acc ip => addAtom acc ip.1 (positionToCell acc ip.2)) cl

/-- The chain from one atom onward, following indices: the Indices stages of
CellIter (lines 278-307).  Out-of-bounds reads panic (none); fuel as in
walkTail. -/
def chainFrom (indices : List (Option ℕ)) : ℕ → ℕ → Option (List ℕ)
  | 0, _ => none
  | fuel + 1, i =>
      match indices[i]? with
      | none => none
      | some none => some [i]
      | some (some n2) => (chainFrom indices fuel n2).map fun rest => i :: rest

/-- CellList::iter_cell_atoms collected into a list (lines 249-254 together
with the iterator of lines 267-307): the cell's head atom, then its chain. -/
def iterCellAtoms (cl : CellList) (cell : ℕ) : Option (List ℕ) :=
  match cl.head[cell]? with
  | none => none
  | some none => some []
  | some (some h) => chainFrom cl.indices (cl.indices.length + 1) h

/-- CellList::iter_cells (lines 256-264), including the source's inner
range 0..j where the z axis has k cells. -/
def iterCells (n_cells : ℕ × ℕ × ℕ) : List ℕ :=
  (List.range n_cells.1).flatMap fun x_idx =>
    (List.range n_cells.2.1).flatMap fun y_idx =>
      (List.range n_cells.2.1).map fun z_idx =>
        z_idx + n_cells.2.2 * y_idx + n_cells.2.1 * n_cells.2.2 * x_idx

/-- CellList::iter_pairs (lines 178-189): for every cell, every atom in it,
every neighbouring cell and every atom in that, the pair of atom indices. -/
def iterPairs (cl : CellList) : Option (List (ℕ × ℕ)) :=
  ((iterCells cl.n_cells).mapM fun cell_index =>
    (iterCellAtoms cl cell_index).bind fun atomsA =>
      (atomsA.mapM fun atom_a =>
        ((iterNeighbouringCells cl.n_cells cell_index 1).mapM fun nc =>
          (iterCellAtoms cl nc).map fun atomsB =>
            atomsB.map fun atom_b => (atom_a, atom_b)).map
          List.flatten).map List.flatten).map List.flatten

/-- VerletPairlist::with_buffer (src/neighbourlist/verlet.rs lines 15-36):
the cell list is built over the EMPTY slice, so indices has length zero
(CellList::new's regenerate call over no positions adds nothing). -/
def withBuffer (cutoff buffer : ℝ) (n_cells : ℕ) : CellList :=
  { n_cells := (n_cells, n_cells, n_cells)
    cell_length := ⟨cutoff + buffer, cutoff + buffer, cutoff + buffer⟩
    indices := []
    head := List.replicate (n_cells * n_cells * n_cells) none }

/-- VerletPairlist::regenerate (lines 43-56): regenerate the cell list,
then rewrite the pair list from iter_pairs with each squared distance
(the NoBounds boundaries, the only implementation provided); positions[i]
on a stray index is a Rust panic (none). -/
def verletRegenerate (cl : CellList) (positions : List Vec3) :
    Option (CellList × List AtomPair) :=
  (cellListRegenerate cl positions).bind fun cl2 =>
    (iterPairs cl2).bind fun prs =>
      (prs.mapM fun ij =>
        positions[ij.1]?.bind fun a =>
          positions[ij.2]?.map fun b =>
            ((ij.1, ij.2), Boundaries.noBounds.dist2 a b)).map
        fun pairs => (cl2, pairs)

/-- SimplePairlist of the neighbourlist module (src/neighbourlist/simple.rs
lines 6-10): the stored pairs and the cutoff. -/
structure SimplePairlist where
  pairs : List AtomPair
  cutoff : ℝ

/-- SimplePairlist::regenerate as a state transformer (lines 29-49): clear
and rebuild; the new pair list does not depend on the previous one. -/
def simpleRegenerate (s : SimplePairlist) (positions : List Vec3)
    (bc : Boundaries) : SimplePairlist :=
  { s with pairs := simpleRegeneratePairs s.cutoff positions bc }

/-! Helper lemmas about folding min over a list. -/

theorem foldl_min_le_init (xs : List ℝ) (a : ℝ) : xs.foldl min a ≤ a := by
  induction xs generalizing a with
  | nil => simp
  | cons x xs ih =>
      exact le_trans (ih (min a x)) (min_le_left a x)

theorem foldl_min_le_mem (xs : List ℝ) (a : ℝ) :
    ∀ y ∈ xs, xs.foldl min a ≤ y := by
  induction xs generalizing a with
  | nil => simp
  | cons x xs ih =>
      intro y hy
      rcases List.mem_cons.mp hy with h | h
      · subst h
        exact le_trans (foldl_min_le_init xs (min a y)) (min_le_right a y)
      · exact ih (min a x) y h

theorem foldl_min_mem (xs : List ℝ) (a : ℝ) :
    xs.foldl min a = a ∨ xs.foldl min a ∈ xs := by
  induction xs generalizing a with
  | nil => simp
  | cons x xs ih =>
      simp only [List.foldl_cons]
      rcases ih (min a x) with h | h
      · rcases min_choice a x with h1 | h1
        · exact Or.inl (h.trans h1)
        · exact Or.inr (List.mem_cons.mpr (Or.inl (h.trans h1)))
      · exact Or.inr (List.mem_cons.mpr (Or.inr h))

theorem minOfList_isLeast (l : List ℝ) (h : l ≠ []) :
    IsLeast {r : ℝ | r ∈ l} (minOfList l) := by
  match l with
  | r :: rs =>
      constructor
      · show rs.foldl min r ∈ {x : ℝ | x ∈ r :: rs}
        rcases foldl_min_mem rs r with h1 | h1
        · rw [Set.mem_setOf_eq, h1]
          exact List.mem_cons_self r rs
        · exact List.mem_cons_of_mem r h1
      · intro y hy
        rcases List.mem_cons.mp hy with h1 | h1
        · rw [h1]
          exact foldl_min_le_init rs r
        · exact foldl_min_le_mem rs r y h1

theorem mem_imageList_iff (v1 v2 v3 a b : Vec3) (r : ℝ) :
    r ∈ imageList v1 v2 v3 a b ↔
      ∃ i ∈ shifts, ∃ j ∈ shifts, ∃ k ∈ shifts,
        r = imageDist2 v1 v2 v3 a b i j k := by
  simp only [imageList, List.mem_flatMap, List.mem_map]
  constructor
  · rintro ⟨i, hi, j, hj, k, hk, hr⟩
    exact ⟨i, hi, j, hj, k, hk, hr.symm⟩
  · rintro ⟨i, hi, j, hj, k, hk, hr⟩
    exact ⟨i, hi, j, hj, k, hk, hr.symm⟩

theorem imageList_ne_nil (v1 v2 v3 a b : Vec3) :
    imageList v1 v2 v3 a b ≠ [] := by
  simp [imageList, shifts]

theorem pbcDist2_isLeast (v1 v2 v3 a b : Vec3) :
    IsLeast {r : ℝ | r ∈ imageList v1 v2 v3 a b} (pbcDist2 v1 v2 v3 a b) :=
  minOfList_isLeast _ (imageList_ne_nil v1 v2 v3 a b)

theorem mem_shifts_iff (i : ℝ) : i ∈ shifts ↔ i ∈ ({-1, 0, 1} : Set ℝ) := by
  simp [shifts]

theorem neg_mem_shifts {i : ℝ} (hi : i ∈ shifts) : -i ∈ shifts := by
  simp only [shifts, List.mem_cons, List.not_mem_nil, or_false] at hi ⊢
  rcases hi with rfl | rfl | rfl <;> norm_num

theorem imageList_swap_mem {v1 v2 v3 a b : Vec3} {r : ℝ}
    (h : r ∈ imageList v1 v2 v3 b a) : r ∈ imageList v1 v2 v3 a b := by
  rw [mem_imageList_iff] at h
  obtain ⟨i, hi, j, hj, k, hk, hr⟩ := h
  rw [mem_imageList_iff]
  refine ⟨-i, neg_mem_shifts hi, -j, neg_mem_shifts hj, -k, neg_mem_shifts hk, ?_⟩
  rw [hr]
  simp only [imageDist2]
  ring

theorem imageDist2_nonneg (v1 v2 v3 a b : Vec3) (i j k : ℝ) :
    0 ≤ imageDist2 v1 v2 v3 a b i j k := by
  simp only [imageDist2]
  positivity

theorem pbcDist2_symm (v1 v2 v3 a b : Vec3) :
    pbcDist2 v1 v2 v3 a b = pbcDist2 v1 v2 v3 b a := by
  have h1 := pbcDist2_isLeast v1 v2 v3 a b
  have h2 := pbcDist2_isLeast v1 v2 v3 b a
  exact le_antisymm (h1.2 (imageList_swap_mem h2.1)) (h2.2 (imageList_swap_mem h1.1))

theorem pbcDist2_nonneg (v1 v2 v3 a b : Vec3) : 0 ≤ pbcDist2 v1 v2 v3 a b := by
  have h := (pbcDist2_isLeast v1 v2 v3 a b).1
  rw [Set.mem_setOf_eq, mem_imageList_iff] at h
  obtain ⟨i, _, j, _, k, _, hr⟩ := h
  rw [hr]
  exact imageDist2_nonneg v1 v2 v3 a b i j k

theorem pbcDist2_le_open (v1 v2 v3 a b : Vec3) :
    pbcDist2 v1 v2 v3 a b ≤ openDist2 a b := by
  have h := (pbcDist2_isLeast v1 v2 v3 a b).2
  have hmem : openDist2 a b ∈ {r : ℝ | r ∈ imageList v1 v2 v3 a b} := by
    rw [Set.mem_setOf_eq, mem_imageList_iff]
    refine ⟨0, by simp [shifts], 0, by simp [shifts], 0, by simp [shifts], ?_⟩
    simp only [openDist2, imageDist2]
    ring
  exact h hmem

/-- C3: for periodic-triclinic boundaries Pbc(v1, v2, v3) and any points a
and b, dist2(a, b) is the minimum (the least element attained) over all
(i, j, k) in the cube {-1, 0, 1}^3 of the squared norm of
(b - a) + i*v1 + j*v2 + k*v3. -/
theorem pbc_dist2_is_min_over_images (v1 v2 v3 a b : Vec3) :
    IsLeast
      {r : ℝ | ∃ i j k : ℝ, i ∈ ({-1, 0, 1} : Set ℝ) ∧ j ∈ ({-1, 0, 1} : Set ℝ) ∧
        k ∈ ({-1, 0, 1} : Set ℝ) ∧
        r = ((b.x - a.x) + i * v1.x + j * v2.x + k * v3.x) ^ 2
          + ((b.y - a.y) + i * v1.y + j * v2.y + k * v3.y) ^ 2
          + ((b.z - a.z) + i * v1.z + j * v2.z + k * v3.z) ^ 2}
      ((Boundaries.pbc v1 v2 v3).dist2 a b) := by
  have hset :
      {r : ℝ | ∃ i j k : ℝ, i ∈ ({-1, 0, 1} : Set ℝ) ∧ j ∈ ({-1, 0, 1} : Set ℝ) ∧
        k ∈ ({-1, 0, 1} : Set ℝ) ∧
        r = ((b.x - a.x) + i * v1.x + j * v2.x + k * v3.x) ^ 2
          + ((b.y - a.y) + i * v1.y + j * v2.y + k * v3.y) ^ 2
          + ((b.z - a.z) + i * v1.z + j * v2.z + k * v3.z) ^ 2}
      = {r : ℝ | r ∈ imageList v1 v2 v3 a b} := by
    ext r
    rw [Set.mem_setOf_eq, Set.mem_setOf_eq, mem_imageList_iff]
    constructor
    · rintro ⟨i, j, k, hi, hj, hk, hr⟩
      exact ⟨i, (mem_shifts_iff i).mpr hi, j, (mem_shifts_iff j).mpr hj,
        k, (mem_shifts_iff k).mpr hk, hr⟩
    · rintro ⟨i, hi, j, hj, k, hk, hr⟩
      exact ⟨i, j, k, (mem_shifts_iff i).mp hi, (mem_shifts_iff j).mp hj,
        (mem_shifts_iff k).mp hk, hr⟩
  rw [hset]
  exact pbcDist2_isLeast v1 v2 v3 a b

/-- C4 (amended): dist2 is symmetric and non-negative under both boundary
variants, and under periodic boundaries dist2(a, b) is at most the open-space
squared distance.  The lattice-translation invariance clause of the original
claim fails for the implemented 27-image scan (see the counterexample). -/
theorem dist2_symm_nonneg_le_open :
    (∀ (bc : Boundaries) (a b : Vec3),
        bc.dist2 a b = bc.dist2 b a ∧ 0 ≤ bc.dist2 a b)
    ∧ (∀ v1 v2 v3 a b : Vec3,
        (Boundaries.pbc v1 v2 v3).dist2 a b ≤ openDist2 a b) := by
  constructor
  · intro bc a b
    cases bc with
    | noBounds =>
        constructor
        · simp only [Boundaries.dist2, openDist2]
          ring
        · simp only [Boundaries.dist2, openDist2]
          positivity
    | pbc v1 v2 v3 =>
        exact ⟨pbcDist2_symm v1 v2 v3 a b, pbcDist2_nonneg v1 v2 v3 a b⟩
  · intro v1 v2 v3 a b
    exact pbcDist2_le_open v1 v2 v3 a b

/-- C4 counterexample: in the cubic 2 nm box, translating the first point by
the lattice vector 2*v1 = (4, 0, 0) changes the computed squared distance
(9/4 instead of 1/4), because the source scans only the 27 nearest images.
So dist2(a + v, b) = dist2(a, b) fails for the lattice translation v = 2*v1
at a = (0,0,0), b = (1/2,0,0). -/
theorem dist2_lattice_translation_counterexample :
    (Boundaries.pbc ⟨2, 0, 0⟩ ⟨0, 2, 0⟩ ⟨0, 0, 2⟩).dist2
        ⟨0 + 2 * 2, 0 + 2 * 0, 0 + 2 * 0⟩ ⟨1 / 2, 0, 0⟩
      ≠ (Boundaries.pbc ⟨2, 0, 0⟩ ⟨0, 2, 0⟩ ⟨0, 0, 2⟩).dist2
        ⟨0, 0, 0⟩ ⟨1 / 2, 0, 0⟩ := by
  have h1 : (Boundaries.pbc ⟨2, 0, 0⟩ ⟨0, 2, 0⟩ ⟨0, 0, 2⟩).dist2
      ⟨0 + 2 * 2, 0 + 2 * 0, 0 + 2 * 0⟩ ⟨1 / 2, 0, 0⟩ = 9 / 4 := by
    norm_num [Boundaries.dist2, pbcDist2, minOfList, imageList, shifts,
      imageDist2, min_def]
  have h2 : (Boundaries.pbc ⟨2, 0, 0⟩ ⟨0, 2, 0⟩ ⟨0, 0, 2⟩).dist2
      ⟨0, 0, 0⟩ ⟨1 / 2, 0, 0⟩ = 1 / 4 := by
    norm_num [Boundaries.dist2, pbcDist2, minOfList, imageList, shifts,
      imageDist2, min_def]
  rw [h1, h2]
  norm_num

/-- C2: pairlist_checks succeeds exactly when the pairlist declares no
cutoff, or the boundaries are unbounded, or the declared cutoff is strictly
below the smallest box-vector length min(|v1|, |v2|, |v3|); in every other
case it returns MinimumImageConventionNotJustified. -/
theorem pairlistChecks_ok_iff :
    ∀ (bc : Boundaries) (cutoff : Option ℝ),
      (pairlistChecks bc cutoff = .ok () ↔
        cutoff = none ∨ bc = .noBounds ∨
          ∃ v1 v2 v3 c, bc = .pbc v1 v2 v3 ∧ cutoff = some c ∧
            c < min (boxVecLength v1) (min (boxVecLength v2) (boxVecLength v3)))
      ∧ (pairlistChecks bc cutoff ≠ .ok () →
          pairlistChecks bc cutoff = .error .minimumImageConventionNotJustified) := by
  intro bc cutoff
  cases bc with
  | noBounds =>
      constructor
      · simp [pairlistChecks]
      · intro h
        exact absurd rfl h
  | pbc v1 v2 v3 =>
      cases cutoff with
      | none =>
          constructor
          · simp [pairlistChecks]
          · intro h
            exact absurd rfl h
      | some c =>
          have hassoc : smallestBoxLength v1 v2 v3
              = min (boxVecLength v1) (min (boxVecLength v2) (boxVecLength v3)) := by
            rw [smallestBoxLength, min_assoc]
          by_cases hlt : c < smallestBoxLength v1 v2 v3
          · constructor
            · simp only [pairlistChecks, if_pos hlt, true_iff]
              exact Or.inr (Or.inr ⟨v1, v2, v3, c, rfl, rfl, hassoc ▸ hlt⟩)
            · intro h
              exact absurd (by simp [pairlistChecks, if_pos hlt]) h
          · constructor
            · simp only [pairlistChecks, if_neg hlt]
              constructor
              · intro h
                exact absurd h (by simp)
              · rintro (h | h | ⟨w1, w2, w3, d, hb, hc, hd⟩)
                · exact absurd h (by simp)
                · exact absurd h (by simp)
                · obtain ⟨rfl, rfl, rfl⟩ : v1 = w1 ∧ v2 = w2 ∧ v3 = w3 := by
                    have := hb
                    injection this with h1 h2 h3
                    exact ⟨h1, h2, h3⟩
                  obtain rfl : c = d := by
                    injection hc
                  exact absurd (hassoc ▸ hd) hlt
            · intro _
              simp [pairlistChecks, if_neg hlt]

/-- C5: the pair-table entry built at construction mixes geometrically
(sigma_squared is the product of the sigmas, epsilon squared is the product
of the epsilons whenever that product is non-negative, the domain of the
square root), its shift is the unshifted Lennard-Jones expression at
cutoff^2, and the shifted potential vanishes exactly at the cutoff. -/
theorem ljParamsPair_new_spec (a b : LjParams) (cutoff : ℝ)
    (heps : 0 ≤ a.epsilon * b.epsilon) :
    (LjParamsPair.new a b cutoff).sigma_squared = a.sigma * b.sigma
    ∧ (LjParamsPair.new a b cutoff).epsilon ^ 2 = a.epsilon * b.epsilon
    ∧ (LjParamsPair.new a b cutoff).shift
        = LjParamsPair.ljPotential
            ⟨(LjParamsPair.new a b cutoff).sigma_squared,
              (LjParamsPair.new a b cutoff).epsilon, 0⟩ (cutoff * cutoff)
    ∧ (LjParamsPair.new a b cutoff).ljPotential (cutoff * cutoff) = 0 := by
  refine ⟨rfl, Real.sq_sqrt heps, rfl, ?_⟩
  simp only [LjParamsPair.new, LjParamsPair.ljPotential]
  ring

/-- C5 witness: the theorem applied to the rows sigma = 1, epsilon = 1 with
cutoff 1; the mixed epsilon squared is the epsilon product and the shifted
potential vanishes at the cutoff. -/
theorem ljParamsPair_new_spec_witness :
    (LjParamsPair.new ⟨1, 1⟩ ⟨1, 1⟩ 1).epsilon ^ 2
        = (LjParams.mk 1 1).epsilon * (LjParams.mk 1 1).epsilon
    ∧ (LjParamsPair.new ⟨1, 1⟩ ⟨1, 1⟩ 1).ljPotential (1 * 1) = 0 :=
  ⟨(ljParamsPair_new_spec ⟨1, 1⟩ ⟨1, 1⟩ 1 (by norm_num)).2.1,
    (ljParamsPair_new_spec ⟨1, 1⟩ ⟨1, 1⟩ 1 (by norm_num)).2.2.2⟩

/-- C9: Topology::new fails with IllegalTopology exactly when the atom and
name counts disagree or some parameter index does not resolve, and succeeds
otherwise; LjPotential::with_pairlist fails with IllegalTopology exactly
when some parameter index does not resolve (given a pairlist that declares a
cutoff, as every constructible pairlist does, it otherwise succeeds); and a
topology whose LJ potential covers 99 atoms against 100 names returns
IllegalTopology. -/
theorem topology_new_illegal_iff :
    (∀ (atoms : List Atom) (atom_names : List String)
        (lj_params : List LjParams) (lj_cutoff : ℝ),
      (Topology.new atoms atom_names lj_params lj_cutoff
          = .error .illegalTopology ↔
        atoms.length ≠ atom_names.length ∨
          ∃ a ∈ atoms, lj_params.length ≤ a.lj_params)
      ∧ (atoms.length = atom_names.length →
          (∀ a ∈ atoms, a.lj_params < lj_params.length) →
          ∃ t, Topology.new atoms atom_names lj_params lj_cutoff = .ok t))
    ∧ (∀ (atoms : List ℕ) (lj_params : List LjParams) (c : ℝ),
      (LjPotential.withPairlist atoms lj_params (some c)
          = .error .illegalTopology ↔ ∃ a ∈ atoms, lj_params.length ≤ a)
      ∧ ((∀ a ∈ atoms, a < lj_params.length) →
          ∃ p, LjPotential.withPairlist atoms lj_params (some c) = .ok p))
    ∧ Topology.new (List.replicate 99 ⟨0⟩) (List.replicate 100 "Ar")
        [⟨1, 1⟩] 1 = .error .illegalTopology := by
  refine ⟨?_, ?_, ?_⟩
  · intro atoms atom_names lj_params lj_cutoff
    constructor
    · by_cases h1 : atoms.length ≠ atom_names.length
      · simp only [Topology.new, if_pos h1, true_iff]
        exact Or.inl h1
      · simp only [Topology.new, if_neg h1]
        by_cases h2 : atoms.any fun atom => lj_params[atom.lj_params]?.isNone
        · simp only [if_pos h2, true_iff]
          refine Or.inr ?_
          obtain ⟨a, ha, hnone⟩ := List.any_eq_true.mp h2
          exact ⟨a, ha, List.getElem?_eq_none_iff.mp (Option.isNone_iff_eq_none.mp hnone)⟩
        · simp only [if_neg h2]
          constructor
          · intro h
            exact absurd h (by simp)
          · rintro (h | ⟨a, ha, hle⟩)
            · exact absurd h h1
            · exact absurd (List.any_eq_true.mpr
                ⟨a, ha, Option.isNone_iff_eq_none.mpr (List.getElem?_eq_none_iff.mpr hle)⟩) h2
    · intro h1 h2
      have hnot1 : ¬ atoms.length ≠ atom_names.length := not_not.mpr h1
      have hnot2 : ¬ atoms.any fun atom => lj_params[atom.lj_params]?.isNone := by
        intro hc
        obtain ⟨a, ha, hnone⟩ := List.any_eq_true.mp hc
        exact absurd (List.getElem?_eq_none_iff.mp (Option.isNone_iff_eq_none.mp hnone))
          (not_le.mpr (h2 a ha))
      exact ⟨_, by rw [Topology.new, if_neg hnot1, if_neg hnot2]⟩
  · intro atoms lj_params c
    constructor
    · by_cases h2 : atoms.any fun atom => lj_params[atom]?.isNone
      · simp only [LjPotential.withPairlist, if_pos h2, true_iff]
        obtain ⟨a, ha, hnone⟩ := List.any_eq_true.mp h2
        exact ⟨a, ha, List.getElem?_eq_none_iff.mp (Option.isNone_iff_eq_none.mp hnone)⟩
      · simp only [LjPotential.withPairlist, if_neg h2]
        constructor
        · intro h
          exact absurd h (by simp)
        · rintro ⟨a, ha, hle⟩
          exact absurd (List.any_eq_true.mpr
            ⟨a, ha, Option.isNone_iff_eq_none.mpr (List.getElem?_eq_none_iff.mpr hle)⟩) h2
    · intro h2
      have hnot2 : ¬ atoms.any fun atom => lj_params[atom]?.isNone := by
        intro hc
        obtain ⟨a, ha, hnone⟩ := List.any_eq_true.mp hc
        exact absurd (List.getElem?_eq_none_iff.mp (Option.isNone_iff_eq_none.mp hnone))
          (not_le.mpr (h2 a ha))
      exact ⟨_, by rw [LjPotential.withPairlist, if_neg hnot2]⟩
  · rw [Topology.new, if_pos (by simp)]

theorem isSome_getElem_iff {α : Type} (l : List α) (n : ℕ) :
    l[n]?.isSome ↔ n < l.length := by
  constructor
  · intro h
    by_contra hc
    rw [List.getElem?_eq_none_iff.mpr (Nat.le_of_not_lt hc)] at h
    simp at h
  · intro h
    rw [List.getElem?_eq_getElem h]
    simp

theorem mem_of_getElem_eq_some {α : Type} {l : List α} {n : ℕ} {a : α}
    (h : l[n]? = some a) : a ∈ l := by
  have hn : n < l.length := by
    by_contra hc
    rw [List.getElem?_eq_none_iff.mpr (Nat.le_of_not_lt hc)] at h
    simp at h
  rw [List.getElem?_eq_getElem hn] at h
  have hm : l[n] ∈ l := List.getElem_mem hn
  rwa [Option.some_inj.mp h] at hm

theorem topology_new_ok_shape {atoms : List Atom} {atom_names : List String}
    {lj_params : List LjParams} {lj_cutoff : ℝ} {t : Topology}
    (h : Topology.new atoms atom_names lj_params lj_cutoff = .ok t) :
    t.atoms = atoms ∧ t.atom_names = atom_names ∧ t.lj_params = lj_params
    ∧ t.lj_params_pairs
        = (lj_params.map fun a =>
            lj_params.map fun b => LjParamsPair.new a b lj_cutoff)
    ∧ atoms.length = atom_names.length
    ∧ ∀ a ∈ atoms, a.lj_params < lj_params.length := by
  rw [Topology.new] at h
  by_cases h1 : atoms.length ≠ atom_names.length
  · rw [if_pos h1] at h
    exact absurd h (by simp)
  · rw [if_neg h1] at h
    by_cases h2 : (atoms.any fun atom => lj_params[atom.lj_params]?.isNone) = true
    · rw [if_pos h2] at h
      exact absurd h (by simp)
    · rw [if_neg h2] at h
      have ht := Except.ok.inj h
      subst ht
      refine ⟨rfl, rfl, rfl, rfl, not_not.mp h1, ?_⟩
      intro a ha
      by_contra hc
      exact h2 (List.any_eq_true.mpr ⟨a, ha, Option.isNone_iff_eq_none.mpr
        (List.getElem?_eq_none_iff.mpr (Nat.le_of_not_lt hc))⟩)

/-- C10: the public accessors are total: on a successfully constructed
topology any index at or above the atom count yields none (never a panic),
and any index below the atom count yields some. -/
theorem topology_accessors_total (atoms : List Atom) (atom_names : List String)
    (lj_params : List LjParams) (lj_cutoff : ℝ) (t : Topology)
    (h : Topology.new atoms atom_names lj_params lj_cutoff = .ok t) :
    (∀ i, t.atoms.length ≤ i →
      t.getLjParams i = none ∧ t.getAtomNames i = none)
    ∧ (∀ i j, t.atoms.length ≤ i ∨ t.atoms.length ≤ j →
      t.getLjPair i j = none)
    ∧ (∀ i, i < t.atoms.length →
      (t.getLjParams i).isSome ∧ (t.getAtomNames i).isSome)
    ∧ (∀ i j, i < t.atoms.length → j < t.atoms.length →
      (t.getLjPair i j).isSome) := by
  obtain ⟨hat, hnm, hlj, hpairs, hlen, hvalid⟩ := topology_new_ok_shape h
  refine ⟨?_, ?_, ?_, ?_⟩
  · intro i hi
    constructor
    · rw [Topology.getLjParams, List.getElem?_eq_none_iff.mpr hi]
      rfl
    · rw [Topology.getAtomNames, List.getElem?_eq_none_iff.mpr]
      rw [hnm, ← hlen, ← hat]
      exact hi
  · intro i j hij
    rcases hij with hi | hj
    · rw [Topology.getLjPair, List.getElem?_eq_none_iff.mpr hi]
      rfl
    · rw [Topology.getLjPair]
      cases hgi : t.atoms[i]? with
      | none => rfl
      | some ai =>
          rw [Option.some_bind, List.getElem?_eq_none_iff.mpr hj]
          rfl
  · intro i hi
    obtain ⟨ai, hai⟩ := Option.isSome_iff_exists.mp ((isSome_getElem_iff _ _).mpr hi)
    have hmem : ai ∈ atoms := hat ▸ mem_of_getElem_eq_some hai
    constructor
    · rw [Topology.getLjParams, hai, Option.some_bind, hlj]
      exact (isSome_getElem_iff _ _).mpr (hvalid ai hmem)
    · rw [Topology.getAtomNames]
      refine (isSome_getElem_iff _ _).mpr ?_
      rw [hnm, ← hlen, ← hat]
      exact hi
  · intro i j hi hj
    obtain ⟨ai, hai⟩ := Option.isSome_iff_exists.mp ((isSome_getElem_iff _ _).mpr hi)
    obtain ⟨aj, haj⟩ := Option.isSome_iff_exists.mp ((isSome_getElem_iff _ _).mpr hj)
    have hmi : ai ∈ atoms := hat ▸ mem_of_getElem_eq_some hai
    have hmj : aj ∈ atoms := hat ▸ mem_of_getElem_eq_some haj
    rw [Topology.getLjPair, hai, haj, Option.some_bind, Option.some_bind, hpairs]
    rw [List.getElem?_map]
    rw [List.getElem?_eq_getElem (hvalid ai hmi), Option.map_some', Option.some_bind]
    rw [List.getElem?_map, List.getElem?_eq_getElem (hvalid aj hmj)]
    rfl

/-- C10 witness: the theorem applied to the one-atom argon-like topology;
in-range accessors are some and out-of-range accessors are none. -/
theorem topology_accessors_total_witness :
    ((Topology.mk [⟨0⟩] ["Ar"] [⟨1, 1⟩]
        [[LjParamsPair.new ⟨1, 1⟩ ⟨1, 1⟩ 1]] 1).getLjParams 5 = none
      ∧ (Topology.mk [⟨0⟩] ["Ar"] [⟨1, 1⟩]
        [[LjParamsPair.new ⟨1, 1⟩ ⟨1, 1⟩ 1]] 1).getAtomNames 5 = none)
    ∧ ((Topology.mk [⟨0⟩] ["Ar"] [⟨1, 1⟩]
        [[LjParamsPair.new ⟨1, 1⟩ ⟨1, 1⟩ 1]] 1).getLjParams 0).isSome
    ∧ ((Topology.mk [⟨0⟩] ["Ar"] [⟨1, 1⟩]
        [[LjParamsPair.new ⟨1, 1⟩ ⟨1, 1⟩ 1]] 1).getLjPair 0 0).isSome := by
  have h : Topology.new [⟨0⟩] ["Ar"] [⟨1, 1⟩] 1
      = .ok (Topology.mk [⟨0⟩] ["Ar"] [⟨1, 1⟩]
          [[LjParamsPair.new ⟨1, 1⟩ ⟨1, 1⟩ 1]] 1) := rfl
  have ht := topology_accessors_total [⟨0⟩] ["Ar"] [⟨1, 1⟩] 1 _ h
  exact ⟨ht.1 5 (by norm_num), (ht.2.2.1 0 (by norm_num)).1,
    ht.2.2.2 0 0 (by norm_num) (by norm_num)⟩

/-- C7: when every stored index pair lies within positions, update succeeds
(Ok), keeps the sequence of index pairs unchanged in content and order, and
replaces each stored r^2 with the boundary squared distance of the indexed
positions; no pair is added or removed (the result is the elementwise map
of the stored list). -/
theorem updatePairs_refreshes_pairs (pairs : List AtomPair)
    (positions : List Vec3) (bc : Boundaries)
    (h : ∀ pr ∈ pairs, pr.1.1 < positions.length ∧ pr.1.2 < positions.length) :
    updatePairs pairs positions bc
      = some (pairs.map fun pr =>
          (pr.1, bc.dist2 (positions[pr.1.1]?.getD ⟨0, 0, 0⟩)
            (positions[pr.1.2]?.getD ⟨0, 0, 0⟩))) := by
  induction pairs with
  | nil => rfl
  | cons p ps ih =>
      obtain ⟨h1, h2⟩ := h p (List.mem_cons_self p ps)
      have ihe := ih fun pr hpr => h pr (List.mem_cons_of_mem p hpr)
      simp only [updatePairs] at ihe ⊢
      rw [List.mapM_cons, ihe]
      rw [List.getElem?_eq_getElem h1, List.getElem?_eq_getElem h2]
      simp [List.getElem?_eq_getElem h1, List.getElem?_eq_getElem h2]

theorem simpleRegenerateInner_eq_some_iff {cutoff : ℝ} {bc : Boundaries}
    {ia jb : ℕ × Vec3} {pr : AtomPair} :
    simpleRegenerateInner cutoff bc ia jb = some pr ↔
      bc.dist2 ia.2 jb.2 < cutoff * cutoff
        ∧ pr = ((ia.1, jb.1), bc.dist2 ia.2 jb.2) := by
  by_cases hc : bc.dist2 ia.2 jb.2 < cutoff * cutoff
  · simp only [simpleRegenerateInner, hc, if_true, Option.some_inj, true_and]
    exact eq_comm
  · simp [simpleRegenerateInner, hc]

theorem enumFrom_pairwise_fst_ne (n : ℕ) (l : List Vec3) :
    (l.enumFrom n).Pairwise fun a b => a.1 ≠ b.1 := by
  have h1 := List.nodup_range' n l.length
  rw [← List.enumFrom_map_fst n l, List.Nodup, List.pairwise_map] at h1
  exact h1

theorem enum_pairwise_fst_ne (l : List Vec3) :
    l.enum.Pairwise fun a b => a.1 ≠ b.1 := by
  have h1 := List.nodup_range l.length
  rw [← List.enum_map_fst l, List.Nodup, List.pairwise_map] at h1
  exact h1

theorem simpleRegeneratePairs_nodup (cutoff : ℝ) (positions : List Vec3)
    (bc : Boundaries) : (simpleRegeneratePairs cutoff positions bc).Nodup := by
  rw [simpleRegeneratePairs, List.nodup_flatMap]
  constructor
  · intro ia _
    refine List.Pairwise.filterMap _ ?_
      (enumFrom_pairwise_fst_ne (ia.1 + 1) (positions.drop (ia.1 + 1)))
    intro a a' hne b hb b' hb'
    rw [Option.mem_def, simpleRegenerateInner_eq_some_iff] at hb hb'
    intro hbb
    rw [hb.2, hb'.2] at hbb
    exact hne (congrArg (fun pr => pr.1.2) hbb)
  · refine (enum_pairwise_fst_ne positions).imp ?_
    intro ia ia' hne pr hpr hpr'
    rw [List.mem_filterMap] at hpr hpr'
    obtain ⟨jb, _, hf⟩ := hpr
    obtain ⟨jb', _, hf'⟩ := hpr'
    rw [simpleRegenerateInner_eq_some_iff] at hf hf'
    apply hne
    have h1 := congrArg (fun pr : AtomPair => pr.1.1) hf.2
    have h2 := congrArg (fun pr : AtomPair => pr.1.1) hf'.2
    exact h1.symm.trans h2

theorem mem_simpleRegeneratePairs_iff (cutoff : ℝ) (positions : List Vec3)
    (bc : Boundaries) (i j : ℕ) (r : ℝ) :
    ((i, j), r) ∈ simpleRegeneratePairs cutoff positions bc ↔
      ∃ a b, positions[i]? = some a ∧ positions[j]? = some b ∧ i < j
        ∧ r = bc.dist2 a b ∧ r < cutoff * cutoff := by
  rw [simpleRegeneratePairs, List.mem_flatMap]
  constructor
  · rintro ⟨⟨i1, a⟩, hia, hmem⟩
    rw [List.mem_filterMap] at hmem
    obtain ⟨⟨j1, b⟩, hjb, hf⟩ := hmem
    rw [simpleRegenerateInner_eq_some_iff] at hf
    obtain ⟨hlt, heq⟩ := hf
    obtain ⟨hkey, hval⟩ := Prod.mk.inj heq
    obtain ⟨hi, hj⟩ := Prod.mk.inj hkey
    subst hi hj hval
    rw [List.mk_mem_enum_iff_getElem?] at hia
    rw [List.mk_mem_enumFrom_iff_le_and_getElem?_sub, List.getElem?_drop] at hjb
    obtain ⟨hle, hget⟩ := hjb
    rw [show i + 1 + (j - (i + 1)) = j by omega] at hget
    exact ⟨a, b, hia, hget, by omega, rfl, hlt⟩
  · rintro ⟨a, b, ha, hb, hij, hr, hlt⟩
    refine ⟨(i, a), List.mk_mem_enum_iff_getElem?.mpr ha, ?_⟩
    rw [List.mem_filterMap]
    refine ⟨(j, b), ?_, ?_⟩
    · rw [List.mk_mem_enumFrom_iff_le_and_getElem?_sub, List.getElem?_drop]
      refine ⟨by omega, ?_⟩
      rw [show i + 1 + (j - (i + 1)) = j by omega]
      exact hb
    · rw [simpleRegenerateInner_eq_some_iff]
      constructor
      · rw [← hr]
        exact hlt
      · rw [hr]

/-- C1: the neighbourlist SimplePairlist::regenerate is complete and uses
absolute indices: a pair ((i, j), r) is stored exactly when i < j, both are
indices into positions, r is the boundary squared distance of those
positions and r is below the squared cutoff, and no pair is stored twice.
The pairlist-module SimplePairlist::update, however, records j relative to
i+1: on three in-range atoms it stores keys (0,0), (0,1), (1,0) instead of
the absolute (0,1), (0,2), (1,2) — the off-by-one the spec flags. -/
theorem simple_regenerate_complete_and_pairlist_off_by_one :
    (∀ (cutoff : ℝ) (positions : List Vec3) (bc : Boundaries) (i j : ℕ) (r : ℝ),
      ((i, j), r) ∈ simpleRegeneratePairs cutoff positions bc ↔
        ∃ a b, positions[i]? = some a ∧ positions[j]? = some b ∧ i < j
          ∧ r = bc.dist2 a b ∧ r < cutoff * cutoff)
    ∧ (∀ (cutoff : ℝ) (positions : List Vec3) (bc : Boundaries),
      (simpleRegeneratePairs cutoff positions bc).Nodup)
    ∧ pairlistSimpleUpdatePairs 2 [⟨0, 0, 0⟩, ⟨1, 0, 0⟩, ⟨0, 1, 0⟩] .noBounds
        = [((0, 0), 1), ((0, 1), 1), ((1, 0), 2)] := by
  refine ⟨mem_simpleRegeneratePairs_iff, simpleRegeneratePairs_nodup, ?_⟩
  norm_num [pairlistSimpleUpdatePairs, simpleRegenerateInner, List.enum,
    List.enumFrom, List.filterMap_cons, List.filterMap_nil,
    Boundaries.dist2, openDist2]

/-- C7 witness: the theorem applied to one stored pair ((0, 1), 99) and two
in-range positions; update returns Ok, the index pair survives and the
stored 99 is replaced by the recomputed squared distance. -/
theorem updatePairs_refreshes_pairs_witness :
    updatePairs [((0, 1), (99 : ℝ))] [⟨0, 0, 0⟩, ⟨1, 0, 0⟩] .noBounds
      = some ([((0, 1), (99 : ℝ))].map fun pr =>
          (pr.1, Boundaries.noBounds.dist2
            ((([⟨0, 0, 0⟩, ⟨1, 0, 0⟩] : List Vec3)[pr.1.1]?).getD ⟨0, 0, 0⟩)
            ((([⟨0, 0, 0⟩, ⟨1, 0, 0⟩] : List Vec3)[pr.1.2]?).getD ⟨0, 0, 0⟩))) :=
  updatePairs_refreshes_pairs [((0, 1), (99 : ℝ))] [⟨0, 0, 0⟩, ⟨1, 0, 0⟩]
    .noBounds (by
      intro pr hpr
      rw [List.mem_singleton] at hpr
      subst hpr
      exact ⟨by norm_num, by norm_num⟩)

/-- C8 (code evaluation at the failing input): for the 2x2x2 grid and the
cell with coordinates (1, 1, 1) (flattened index 7), iter_neighbouring_cells
with neighbours = 1 iterates dx, dy, dz over the half-open range {-1, 0}
(8 tuples, not 27) and derives y and z by an unflattening that is not the
inverse of the flattening (y = (cell - x) / k instead of
(cell - j*k*x) / k), producing only the cells 3 and 7.  The cell (0, 0, 0),
a clamped neighbour of (1, 1, 1) that the claim requires, is never
produced. -/
theorem iter_neighbouring_cells_bug :
    iterNeighbouringCells (2, 2, 2) (flattenCell (2, 2, 2) 1 1 1) 1
        = [3, 3, 3, 3, 7, 7, 7, 7]
    ∧ flattenCell (2, 2, 2) 0 0 0
        ∉ iterNeighbouringCells (2, 2, 2) (flattenCell (2, 2, 2) 1 1 1) 1 := by
  constructor <;> decide

/-- C6 (code evaluation at the failing input): regenerate is idempotent for
the simple neighbourlist variant, whose rebuilt pair list is a pure function
of the positions, but the Verlet variant's regenerate fails with an index
panic (modelled none) already for a single atom at the origin: with_buffer
builds its cell list over an empty slice, so the chain iterator reads
indices[0] out of bounds.  It therefore leaves no stored pair multiset at
all on any non-empty positions. -/
theorem regenerate_idempotent_simple_but_verlet_panics :
    (∀ (s : SimplePairlist) (positions : List Vec3) (bc : Boundaries),
      simpleRegenerate (simpleRegenerate s positions bc) positions bc
        = simpleRegenerate s positions bc)
    ∧ verletRegenerate (withBuffer 1 0 1) [⟨0, 0, 0⟩] = none := by
  constructor
  · intro s positions bc
    rfl
  · have hreg : cellListRegenerate (withBuffer 1 0 1) [⟨0, 0, 0⟩]
        = some ⟨(1, 1, 1), ⟨1, 1, 1⟩, [], [some 0]⟩ := by
      simp [cellListRegenerate, List.enum, List.enumFrom, addAtom,
        withBuffer, positionToCell, List.replicate]
    have hpairs : iterPairs ⟨(1, 1, 1), ⟨1, 1, 1⟩, [], [some 0]⟩ = none := by
      simp [iterPairs, iterCells, iterCellAtoms, chainFrom,
        List.range_succ, List.mapM.loop]
    rw [verletRegenerate, hreg, Option.some_bind, hpairs]
    rfl

end

end Noether
